import Mathlib

/-!
Shallow embedding of the cryptographic proving core of the Jolt-zkVM-lookup
repository, together with theorems settling the specification claims.

Conventions of the embedding:
* A Rust `Fr` value (`src/field/fr.rs`) is a `Nat` in `[0, MODULUS)`.
* Rust `u64` addition wraps at `2 ^ 64` (release semantics); in a debug build
  the same overflow aborts — either way the sum is not the mod-`MODULUS` sum.
  The wrap is made explicit in `frAdd` because `impl Add for Fr` adds the raw
  `u64` representatives before reducing.
* Multiplication uses a `u128` intermediate in the source and never overflows,
  so `frMul` reduces the exact product.
* Fallible code paths (out-of-bounds indexing, arithmetic-underflow aborts,
  propagated arithmetic errors) are modelled with `Option` / `Except`.
-/

set_option maxRecDepth 100000

namespace JoltCore

/-- Constant `Fr::MODULUS = 0xFFFFFFFF00000001`, the 64-bit Goldilocks prime. -/
def MODULUS : Nat := 0xFFFFFFFF00000001

/-- Source `impl Add for Fr`: `Fr((self.0 + rhs.0) % Self::MODULUS)`.  The inner sum
is performed on raw `u64` values, hence the explicit wrap at `2 ^ 64`. -/
def frAdd (a b : Nat) : Nat := ((a + b) % 2 ^ 64) % MODULUS

/-- Source `impl Sub for Fr`: branch on `self.0 >= rhs.0`, no wrap possible. -/
def frSub (a b : Nat) : Nat := if b ≤ a then a - b else MODULUS - (b - a)

/-- Source `impl Mul for Fr`: exact product through a `u128` intermediate, reduced. -/
def frMul (a b : Nat) : Nat := (a * b) % MODULUS

/-- Conversion `From<u64> for Fr`: reduce an arbitrary `u64` into the field. -/
def frFromU64 (v : Nat) : Nat := v % MODULUS

/-- One step of `Fr::pow`'s square-and-multiply loop, fuelled: the source
iterates `while exp > 0` on a `u64` exponent, so 64 iterations always
suffice.  Mirrors: `if exp & 1 == 1 { result *= base }; base *= base;
exp >>= 1`. -/
def frPowAux : Nat → Nat → Nat → Nat → Nat
  | 0, _, _, result => result
  | fuel + 1, base, e, result =>
    if e = 0 then result
    else frPowAux fuel (frMul base base) (e / 2)
      (if e % 2 = 1 then frMul result base else result)

/-- Method `Fr::pow(exp)` for a `u64` exponent. -/
def frPow (a e : Nat) : Nat := frPowAux 64 a e 1

/-- Method `Fr::inverse`: `None` on zero, otherwise `a ^ (MODULUS - 2)`. -/
def inverse (a : Nat) : Option Nat :=
  if a = 0 then none else some (frPow a (MODULUS - 2))

/-- Modelled from the spec: no `impl Div for Fr` exists anywhere under `src`
(the polynomial code uses `/` on `Fr`), so field division is modelled from the
spec's words — division is multiplication by `inverse()`, and "division/inverse
of the zero element" is "always propagated, never silently mapped to zero". -/
def frDiv (a b : Nat) : Option Nat := (inverse b).map (fun binv => frMul a binv)

/-- Method `Fr::is_zero`. -/
def frIsZero (a : Nat) : Bool := a == 0

theorem MODULUS_pos : 0 < MODULUS := by decide

theorem frMul_lt (a b : Nat) : frMul a b < MODULUS :=
  Nat.mod_lt _ MODULUS_pos

theorem frAdd_lt (a b : Nat) : frAdd a b < MODULUS :=
  Nat.mod_lt _ MODULUS_pos

theorem frSub_lt (a b : Nat) (ha : a < MODULUS) (_hb : b < MODULUS) :
    frSub a b < MODULUS := by
  unfold frSub
  split
  · omega
  · omega

/-- Correctness of the source's square-and-multiply loop: with enough fuel it
computes `(result * base ^ e) % MODULUS`. -/
theorem frPowAux_correct : ∀ fuel e base res, e < 2 ^ fuel → res < MODULUS →
    frPowAux fuel base e res = (res * base ^ e) % MODULUS := by
  intro fuel
  induction fuel with
  | zero =>
    intro e base res he hres
    interval_cases e
    simp [frPowAux, Nat.mod_eq_of_lt hres]
  | succ n ih =>
    intro e base res he hres
    by_cases he0 : e = 0
    · subst he0
      simp [frPowAux, Nat.mod_eq_of_lt hres]
    · have hstep : frPowAux (n + 1) base e res =
          frPowAux n (frMul base base) (e / 2)
            (if e % 2 = 1 then frMul res base else res) := by
        simp [frPowAux, he0]
      rw [hstep]
      have hdiv : e / 2 < 2 ^ n := by
        have h2 : 2 ^ (n + 1) = 2 ^ n * 2 := by ring
        omega
      have hres' : (if e % 2 = 1 then frMul res base else res) < MODULUS := by
        split
        · exact frMul_lt _ _
        · exact hres
      rw [ih (e / 2) (frMul base base) _ hdiv hres']
      -- both sides are `res * base ^ e` up to congruence mod MODULUS
      have hsplit : e = 2 * (e / 2) + e % 2 := (Nat.div_add_mod e 2).symm ▸ by omega
      have hmod : res * base ^ e ≡
          (if e % 2 = 1 then frMul res base else res) *
            (frMul base base) ^ (e / 2) [MOD MODULUS] := by
        have hb : frMul base base ≡ base * base [MOD MODULUS] :=
          (Nat.mod_modEq _ _)
        by_cases hpar : e % 2 = 1
        · have hr : frMul res base ≡ res * base [MOD MODULUS] :=
            Nat.mod_modEq _ _
          calc res * base ^ e
              = (res * base) * (base * base) ^ (e / 2) := by
                conv_lhs => rw [hsplit, hpar]
                rw [pow_succ, pow_mul]
                ring
            _ ≡ (frMul res base) * (frMul base base) ^ (e / 2) [MOD MODULUS] :=
                Nat.ModEq.mul hr.symm (Nat.ModEq.pow _ hb.symm)
            _ = (if e % 2 = 1 then frMul res base else res) *
                  (frMul base base) ^ (e / 2) := by rw [if_pos hpar]
        · have hpar0 : e % 2 = 0 := by omega
          calc res * base ^ e
              = res * (base * base) ^ (e / 2) := by
                conv_lhs => rw [hsplit, hpar0]
                rw [Nat.add_zero, pow_mul]
                ring
            _ ≡ res * (frMul base base) ^ (e / 2) [MOD MODULUS] :=
                Nat.ModEq.mul_left _ (Nat.ModEq.pow _ hb.symm)
            _ = (if e % 2 = 1 then frMul res base else res) *
                  (frMul base base) ^ (e / 2) := by rw [if_neg hpar]
      exact hmod.symm

/-- Method `Fr::pow` computes modular exponentiation for any `u64` exponent. -/
theorem frPow_correct (a e : Nat) (he : e < 2 ^ 64) :
    frPow a e = a ^ e % MODULUS := by
  have h := frPowAux_correct 64 e a 1 he (by decide)
  simpa [frPow] using h

/-- Casting a `Nat` power into `ZMod MODULUS` through the loop's value. -/
theorem zmod_pow_frPow (a k : Nat) (hk : k < 2 ^ 64) :
    ((a : ZMod MODULUS)) ^ k = ((frPow a k : Nat) : ZMod MODULUS) := by
  rw [frPow_correct a k hk, ZMod.natCast_mod, Nat.cast_pow]

theorem natCast_zmod_inj {a b : Nat} (ha : a < MODULUS) (hb : b < MODULUS)
    (h : ((a : Nat) : ZMod MODULUS) = (b : Nat)) : a = b := by
  have := (ZMod.natCast_eq_natCast_iff a b MODULUS).mp h
  have h2 := Nat.ModEq.eq_of_lt_of_lt this ha hb
  exact h2

/-- The Goldilocks modulus is prime, by the Lucas primality criterion with
witness 7; the prime factors of `MODULUS - 1 = 2^32 · (2^32 - 1)` are
2, 3, 5, 17, 257 and 65537. -/
theorem prime_MODULUS : Nat.Prime MODULUS := by
  have hfac : MODULUS - 1 = 2 ^ 32 * (3 * (5 * (17 * (257 * 65537)))) := by decide
  have hlt : MODULUS - 1 < 2 ^ 64 := by decide
  refine lucas_primality MODULUS (7 : Nat) ?_ ?_
  · rw [zmod_pow_frPow 7 (MODULUS - 1) hlt]
    have : frPow 7 (MODULUS - 1) = 1 := by decide
    rw [this, Nat.cast_one]
  · intro q hq hdvd
    have hcases : q = 2 ∨ q = 3 ∨ q = 5 ∨ q = 17 ∨ q = 257 ∨ q = 65537 := by
      rw [hfac] at hdvd
      rcases (Nat.Prime.dvd_mul hq).mp hdvd with h | h
      · exact Or.inl ((Nat.prime_dvd_prime_iff_eq hq Nat.prime_two).mp
          (hq.dvd_of_dvd_pow h))
      rcases (Nat.Prime.dvd_mul hq).mp h with h | h
      · exact Or.inr (Or.inl ((Nat.prime_dvd_prime_iff_eq hq (by norm_num)).mp h))
      rcases (Nat.Prime.dvd_mul hq).mp h with h | h
      · exact Or.inr (Or.inr (Or.inl
          ((Nat.prime_dvd_prime_iff_eq hq (by norm_num)).mp h)))
      rcases (Nat.Prime.dvd_mul hq).mp h with h | h
      · exact Or.inr (Or.inr (Or.inr (Or.inl
          ((Nat.prime_dvd_prime_iff_eq hq (by norm_num)).mp h))))
      rcases (Nat.Prime.dvd_mul hq).mp h with h | h
      · exact Or.inr (Or.inr (Or.inr (Or.inr (Or.inl
          ((Nat.prime_dvd_prime_iff_eq hq (by norm_num)).mp h)))))
      · exact Or.inr (Or.inr (Or.inr (Or.inr (Or.inr
          ((Nat.prime_dvd_prime_iff_eq hq (by norm_num)).mp h)))))
    have hne : ∀ k : Nat, k < 2 ^ 64 → frPow 7 k ≠ 1 → frPow 7 k < MODULUS →
        ((7 : Nat) : ZMod MODULUS) ^ k ≠ 1 := by
      intro k hk hne hlt h
      rw [zmod_pow_frPow 7 k hk] at h
      have h1 : ((frPow 7 k : Nat) : ZMod MODULUS) = ((1 : Nat) : ZMod MODULUS) := by
        rw [h, Nat.cast_one]
      exact hne (natCast_zmod_inj hlt (by decide) h1)
    rcases hcases with rfl | rfl | rfl | rfl | rfl | rfl
    · exact hne _ (by decide) (by decide) (by decide)
    · exact hne _ (by decide) (by decide) (by decide)
    · exact hne _ (by decide) (by decide) (by decide)
    · exact hne _ (by decide) (by decide) (by decide)
    · exact hne _ (by decide) (by decide) (by decide)
    · exact hne _ (by decide) (by decide) (by decide)

instance : Fact (Nat.Prime MODULUS) := ⟨prime_MODULUS⟩

/-- Fermat inversion at the `Nat` level: for nonzero `a < MODULUS`,
`a * a ^ (MODULUS - 2)` reduces to 1. -/
theorem frMul_frPow_sub_two (a : Nat) (ha : a < MODULUS) (hnz : a ≠ 0) :
    frMul a (frPow a (MODULUS - 2)) = 1 := by
  have hcast_ne : ((a : Nat) : ZMod MODULUS) ≠ 0 := by
    intro h
    have h0 : ((a : Nat) : ZMod MODULUS) = ((0 : Nat) : ZMod MODULUS) := by
      rw [h, Nat.cast_zero]
    exact hnz (natCast_zmod_inj ha MODULUS_pos h0)
  have hferm : ((a : Nat) : ZMod MODULUS) ^ (MODULUS - 1) = 1 :=
    ZMod.pow_card_sub_one_eq_one hcast_ne
  have hsplit : MODULUS - 1 = (MODULUS - 2) + 1 := by decide
  have hz : ((a : Nat) : ZMod MODULUS) * ((a : Nat) : ZMod MODULUS) ^ (MODULUS - 2) = 1 := by
    rw [hsplit, pow_succ] at hferm
    calc ((a : Nat) : ZMod MODULUS) * ((a : Nat) : ZMod MODULUS) ^ (MODULUS - 2)
        = ((a : Nat) : ZMod MODULUS) ^ (MODULUS - 2) * ((a : Nat) : ZMod MODULUS) := by ring
      _ = 1 := hferm
  rw [zmod_pow_frPow a (MODULUS - 2) (by decide)] at hz
  have hz2 : ((a * frPow a (MODULUS - 2) : Nat) : ZMod MODULUS) = ((1 : Nat) : ZMod MODULUS) := by
    push_cast
    exact hz
  have hmem : a * frPow a (MODULUS - 2) ≡ 1 [MOD MODULUS] :=
    (ZMod.natCast_eq_natCast_iff _ _ _).mp hz2
  have : a * frPow a (MODULUS - 2) % MODULUS = 1 % MODULUS := hmem
  rw [Nat.mod_eq_of_lt (by decide : (1 : Nat) < MODULUS)] at this
  exact this

/-- C5 — the claim is refuted by the code: at `a = b = MODULUS - 1` the raw
`u64` sum `self.0 + rhs.0` exceeds `2 ^ 64`, so `impl Add for Fr` does not
return the exact mod-`MODULUS` sum: it yields `2 ^ 64 - 2 ^ 33`, while the
field sum is `MODULUS - 2 = 2 ^ 64 - 2 ^ 32 - 1` (in a debug build the same
input aborts with an overflow panic). -/
theorem frAdd_overflow_bug :
    frAdd (MODULUS - 1) (MODULUS - 1) = 18446744065119617024 ∧
    ((MODULUS - 1) + (MODULUS - 1)) % MODULUS = 18446744069414584319 ∧
    (18446744065119617024 : Nat) ≠ 18446744069414584319 := by
  refine ⟨by decide, by decide, by decide⟩

/-- C6 — `Fr::inverse` returns `None` exactly on the additive identity, and on
any nonzero input it returns `a ^ (MODULUS - 2)`, a genuine multiplicative
inverse: `a * a.inverse() == 1`. -/
theorem inverse_correct (a : Nat) (ha : a < MODULUS) :
    (inverse a = none ↔ a = 0) ∧
    (a ≠ 0 → inverse a = some (frPow a (MODULUS - 2)) ∧
      frMul a (frPow a (MODULUS - 2)) = 1) := by
  constructor
  · constructor
    · intro h
      by_contra hnz
      simp [inverse, hnz] at h
    · intro h
      simp [inverse, h]
  · intro hnz
    exact ⟨by simp [inverse, hnz], frMul_frPow_sub_two a ha hnz⟩

/-- Witness for C6 at `a = 2`: the inverse exists and multiplies back to 1. -/
theorem inverse_correct_witness :
    (inverse 2 = none ↔ (2 : Nat) = 0) ∧
    ((2 : Nat) ≠ 0 → inverse 2 = some (frPow 2 (MODULUS - 2)) ∧
      frMul 2 (frPow 2 (MODULUS - 2)) = 1) :=
  inverse_correct 2 (by decide)

/-! ## Poseidon hash (`src/crypto/hash.rs`)

`PoseidonHash` keeps a width-3 state vector across calls.  `hash` overwrites
only `state[0]` and `state[1]` with `input[0]` and `input[1]` (aborting when
the input is shorter than 2), leaves `state[2]` as whatever the previous call
left there, runs 8 rounds and returns `state[0]`.  The state is a triple
`(s0, s1, s2)` here, and `hash` returns the updated state together with the
output so that the cross-call mutation is explicit. -/

/-- Constant `POSEIDON_ROUNDS`. -/
def POSEIDON_ROUNDS : Nat := 8

/-- Source `generate_round_constants`: every constant is `Fr::from(1)`. -/
def roundConstant (_r _i : Nat) : Nat := frFromU64 1

/-- Source `generate_mds_matrix`: every entry is `Fr::from(1)`. -/
def mdsEntry (_i _j : Nat) : Nat := frFromU64 1

/-- The width-3 internal state. -/
abbrev PoseidonState : Type := Nat × Nat × Nat

/-- One MDS row of `hash`: `state[i] = Fr::zero()` then three
`state[i] += old_state[j] * self.mds_matrix[i][j]` accumulations. -/
def mdsRow (s : PoseidonState) (i : Nat) : Nat :=
  frAdd (frAdd (frAdd 0 (frMul s.1 (mdsEntry i 0)))
    (frMul s.2.1 (mdsEntry i 1))) (frMul s.2.2 (mdsEntry i 2))

/-- One round `r` of the loop body of `hash`: add round constants, S-box
layer (the branch condition `r < ROUNDS/2 || r >= ROUNDS - ROUNDS/2` is kept
as written; with 8 rounds it always selects the full S-box), MDS mixing. -/
def poseidonRound (s : PoseidonState) (r : Nat) : PoseidonState :=
  let s1 : PoseidonState :=
    (frAdd s.1 (roundConstant r 0), frAdd s.2.1 (roundConstant r 1),
      frAdd s.2.2 (roundConstant r 2))
  let s2 : PoseidonState :=
    if r < POSEIDON_ROUNDS / 2 ∨ POSEIDON_ROUNDS - POSEIDON_ROUNDS / 2 ≤ r then
      (frPow s1.1 5, frPow s1.2.1 5, frPow s1.2.2 5)
    else
      (frPow s1.1 5, s1.2.1, s1.2.2)
  (mdsRow s2 0, mdsRow s2 1, mdsRow s2 2)

/-- Method `PoseidonHash::hash`: absorb `input[0]`, `input[1]` (an input of length
below 2 aborts on out-of-bounds indexing, hence `none`), keep the residual
`state[2]`, run the rounds, return the new state and `state[0]`. -/
def poseidonHash (st : PoseidonState) (input : List Nat) :
    Option (PoseidonState × Nat) :=
  match input with
  | a :: b :: _ =>
    let s := (List.range POSEIDON_ROUNDS).foldl poseidonRound (a, b, st.2.2)
    some (s, s.1)
  | _ => none

/-- Constructor `PoseidonHash::new`: zero-initialised state. -/
def poseidonInit : PoseidonState := (0, 0, 0)

/-- Two successive `hash` calls on the same instance, as
`ProofSystem`/`MerkleTree` perform them; returns both outputs. -/
def hashTwice (input : List Nat) : Option (Nat × Nat) :=
  match poseidonHash poseidonInit input with
  | none => none
  | some (st1, c1) =>
    match poseidonHash st1 input with
    | none => none
    | some (_, c2) => some (c1, c2)

/-- C9 — `PoseidonHash::hash` is not a pure function of its input: on a fresh
instance, hashing `[0, 0]` twice gives two different outputs because the
residual `state[2]` of the first call feeds the second; and the output depends
only on `input[0]`, `input[1]` and the prior state — elements at index 2 and
beyond are never read. -/
theorem poseidonHash_stateful :
    (∃ c1 c2, hashTwice [0, 0] = some (c1, c2) ∧ c1 ≠ c2) ∧
    (∀ (st : PoseidonState) (a b : Nat) (rest rest' : List Nat),
      poseidonHash st (a :: b :: rest) = poseidonHash st (a :: b :: rest')) := by
  constructor
  · refine ⟨3966664537284225876, 209708315316993563, by decide, by decide⟩
  · intro st a b rest rest'
    rfl

/-- C4 — refuted by the code: the transcripts `[0, 0, 1]` and `[0, 0, 2]`
differ in a committed value, yet `PoseidonHash::hash` gives them the same
challenge (it never reads `input[2]`), so a changed committed value beyond
index 1 does not change the final challenge. -/
theorem poseidonHash_collision :
    ([0, 0, 1] ≠ ([0, 0, 2] : List Nat)) ∧
    poseidonHash poseidonInit [0, 0, 1] = poseidonHash poseidonInit [0, 0, 2] := by
  exact ⟨by decide, rfl⟩

/-! ## Proof system (`src/crypto/proof.rs`, `src/crypto/commitment.rs`)

`ProofSystem` owns one `PoseidonHash`, whose state threads through
`create_proof` and `verify`.  `PedersenCommitment` is parametrised here by its
generators and blinding factor (the source draws them from `thread_rng` at
construction); `commit` asserts the length match. -/

/-- Method `PedersenCommitment::commit`: `Σ value_i * generator_i + blinding`; the
`assert_eq!` on the lengths is the `none` case.  (The source writes the final
accumulation as `commitment += self.blinding_factor`; per spec 4.5 the
commitment value itself is returned.) -/
def pedersenCommit (generators : List Nat) (blinding : Nat)
    (values : List Nat) : Option Nat :=
  if values.length = generators.length then
    some (frAdd ((values.zip generators).foldl
      (fun acc vg => frAdd acc (frMul vg.1 vg.2)) 0) blinding)
  else none

/-- The components of a `Proof`. -/
structure Proof where
  witness_commitment : Nat
  evaluation : Nat
  challenge : Nat
deriving DecidableEq

/-- Method `Polynomial::evaluate`: Horner-free accumulation
`result += coefficient * power; power *= point`. -/
def polyEvaluate (coefficients : List Nat) (point : Nat) : Nat :=
  (coefficients.foldl
    (fun acc c => (frAdd acc.1 (frMul c acc.2), frMul acc.2 point))
    (0, 1)).1

/-- Source `Polynomial::normalize` as used by `Polynomial::new`: drop trailing zero
coefficients, and represent the zero polynomial as `[0]`. -/
def dropTrailingZeros : List Nat → List Nat
  | [] => []
  | a :: t =>
    match dropTrailingZeros t with
    | [] => if a = 0 then [] else [a]
    | t' => a :: t'

/-- Constructor `Polynomial::new`: store the coefficients and normalize. -/
def polyNew (coefficients : List Nat) : List Nat :=
  match dropTrailingZeros coefficients with
  | [] => [0]
  | t => t

/-- Method `ProofSystem::create_proof`: commit to the witness, build the transcript
`public_inputs ++ [witness_commitment]`, derive the challenge by hashing it
(mutating the owned hasher), and evaluate the witness polynomial there. -/
def createProof (st : PoseidonState) (generators : List Nat) (blinding : Nat)
    (witness publicInputs : List Nat) : Option (PoseidonState × Proof) :=
  match pedersenCommit generators blinding witness with
  | none => none
  | some witnessCommitment =>
    let transcript := publicInputs ++ [witnessCommitment]
    match poseidonHash st transcript with
    | none => none
    | some (st', challenge) =>
      some (st', ⟨witnessCommitment, polyEvaluate (polyNew witness) challenge,
        challenge⟩)

/-- Method `ProofSystem::verify`: rebuild the transcript, hash it with the instance's
hasher (again mutating it), compare challenges. -/
def verifyProof (st : PoseidonState) (proof : Proof)
    (publicInputs : List Nat) : Option (PoseidonState × Bool) :=
  let transcript := publicInputs ++ [proof.witness_commitment]
  match poseidonHash st transcript with
  | none => none
  | some (st', challenge) => some (st', challenge == proof.challenge)

/-- Composition of `create_proof` followed by `verify` on the same freshly constructed
`ProofSystem` instance, the scenario of the round-trip claim. -/
def proveThenVerify (generators : List Nat) (blinding : Nat)
    (witness publicInputs : List Nat) : Option Bool :=
  match createProof poseidonInit generators blinding witness publicInputs with
  | none => none
  | some (st', proof) =>
    match verifyProof st' proof publicInputs with
    | none => none
    | some (_, b) => some b

/-- C1 — refuted by the code: with an all-zero 32-element witness, public
input `[0]` and a commitment key of 32 zero generators with zero blinding,
`verify`, run on the same instance right after `create_proof`, recomputes the
challenge on a hasher whose `state[2]` still holds the residue of the
prover's hash call, obtains a different challenge, and returns `false`. -/
theorem proveThenVerify_fails :
    proveThenVerify (List.replicate 32 0) 0 (List.replicate 32 0) [0] =
      some false := by
  decide

/-! ## Merkle tree (`src/crypto/merkle.rs`)

`MerkleTree::new` threads one `PoseidonHash` through every pair-hash of the
construction (so each node value depends on how many hashes preceded it);
`generate_proof` records a sibling only `if sibling_index < level.len()`,
skipping the zero-padded partner of a trailing odd node; `verify` threads the
caller-supplied hasher. -/

/-- One level-reduction pass of `MerkleTree::new`'s `while` loop body:
`chunks(2)` with `chunk.get(1).unwrap_or(zero)`, hashing sequentially with
the tree's hasher. -/
def hashPairs (st : PoseidonState) : List Nat → Option (PoseidonState × List Nat)
  | [] => some (st, [])
  | [a] =>
    match poseidonHash st [a, 0] with
    | none => none
    | some (st', h) => some (st', [h])
  | a :: b :: rest =>
    match poseidonHash st [a, b] with
    | none => none
    | some (st', h) =>
      match hashPairs st' rest with
      | none => none
      | some (st'', hs) => some (st'', h :: hs)

/-- The `while levels.last().len() > 1` loop, fuelled (each pass at least
halves the level length, so `leaves.length + 1` passes always suffice).
Levels accumulate bottom-first as in the source. -/
def buildLevels (fuel : Nat) (st : PoseidonState) (levels : List (List Nat)) :
    Option (PoseidonState × List (List Nat)) :=
  match fuel with
  | 0 => none
  | fuel + 1 =>
    match levels.getLast? with
    | none => none
    | some last =>
      if last.length ≤ 1 then some (st, levels)
      else
        match hashPairs st last with
        | none => none
        | some (st', next) => buildLevels fuel st' (levels ++ [next])

/-- Constructor `MerkleTree::new`: fresh hasher, levels grown from the leaf level. -/
def merkleNew (leaves : List Nat) : Option (PoseidonState × List (List Nat)) :=
  buildLevels (leaves.length + 1) poseidonInit [leaves]

/-- Method `MerkleTree::root`: `*levels.last().first()`. -/
def merkleRoot (levels : List (List Nat)) : Option Nat :=
  match levels.getLast? with
  | none => none
  | some last => last.head?

/-- Method `MerkleTree::generate_proof`: walk the levels below the root; push the
sibling `index ^ 1` only when it exists in that level. -/
def generateProof (levels : List (List Nat)) (index : Nat) : List Nat :=
  ((List.range (levels.length - 1)).foldl
    (fun acc lvl =>
      let level := levels.getD lvl []
      let sib := acc.2 ^^^ 1
      (if sib < level.length then acc.1 ++ [level.getD sib 0] else acc.1,
        acc.2 / 2))
    ([], index)).1

/-- The loop of `MerkleProof::verify`, threading the supplied hasher. -/
def merkleVerifyLoop (st : PoseidonState) (current index : Nat) :
    List Nat → Option (PoseidonState × Nat)
  | [] => some (st, current)
  | sibling :: rest =>
    let lr := if index % 2 = 0 then (current, sibling) else (sibling, current)
    match poseidonHash st [lr.1, lr.2] with
    | none => none
    | some (st', h) => merkleVerifyLoop st' h (index / 2) rest

/-- Method `MerkleProof::verify(root, leaf, index, hasher)`. -/
def merkleVerify (st : PoseidonState) (root leaf : Nat) (index : Nat)
    (proof : List Nat) : Option Bool :=
  match merkleVerifyLoop st leaf index proof with
  | none => none
  | some (_, current) => some (current == root)

/-- Build the tree from `leaves`, generate the proof for `i`, and verify it
against the tree's root and `leaves[i]` with a freshly constructed hasher. -/
def merkleRoundTrip (leaves : List Nat) (i : Nat) : Option Bool :=
  match merkleNew leaves with
  | none => none
  | some (_, levels) =>
    match merkleRoot levels with
    | none => none
    | some root =>
      match leaves.get? i with
      | none => none
      | some leaf => merkleVerify poseidonInit root leaf i (generateProof levels i)

/-- C2 — refuted by the code: for the odd leaf sequence `[1, 2, 3]` at index
2, `generate_proof` records no sibling for the zero-padded bottom pairing and
the tree hashes were produced by a stateful hasher, so the proof verification
recomputes a different root and returns `false`. -/
theorem merkleRoundTrip_fails : merkleRoundTrip [1, 2, 3] 2 = some false := by
  decide

/-! ## Lookup subtable (`src/crypto/lookup.rs`) -/

/-- Modelled from the spec: the `ProofError` enum is used throughout `src`
but its declaration is absent; the spec's error taxonomy names
`LookupFailed` ("queried key absent from a subtable"). -/
inductive ProofError where
  | LookupFailed
deriving DecidableEq

/-- The `SubtableProof` produced by `LookupSubtable::prove_lookup`. -/
structure SubtableProof where
  elements : List Nat
deriving DecidableEq

/-- The loop of `LookupSubtable::prove_lookup`: for each queried value, push
`self.table.get(&value)` or return `Err(ProofError::LookupFailed)`.  The
`BTreeMap` is an association list queried with `List.lookup`. -/
def proveLookupAux (table : List (Nat × Nat)) :
    List Nat → Except ProofError (List Nat)
  | [] => .ok []
  | v :: rest =>
    match table.lookup v with
    | some r =>
      match proveLookupAux table rest with
      | .ok l => .ok (r :: l)
      | .error e => .error e
    | none => .error .LookupFailed

/-- Method `LookupSubtable::prove_lookup`. -/
def proveLookup (table : List (Nat × Nat)) (values : List Nat) :
    Except ProofError SubtableProof :=
  match proveLookupAux table values with
  | .ok elements => .ok ⟨elements⟩
  | .error e => .error e

/-- C3 — `prove_lookup` fails with `LookupFailed` exactly when some queried
key is absent from the subtable's map; when every key is present it returns
the table values of the queried keys in query order, and on the subtable
`{(1,10),(2,20)}` the query `[1]` yields the single element `10`. -/
theorem proveLookup_correct (table : List (Nat × Nat)) (values : List Nat) :
    (proveLookup table values = .error .LookupFailed ↔
      ∃ v ∈ values, table.lookup v = none) ∧
    ((∀ v ∈ values, (table.lookup v).isSome) →
      proveLookup table values = .ok ⟨values.filterMap (fun v => table.lookup v)⟩) ∧
    proveLookup [(1, 10), (2, 20)] [1] = .ok ⟨[10]⟩ := by
  have key : ∀ vs : List Nat,
      (proveLookupAux table vs = .error .LookupFailed ↔
        ∃ v ∈ vs, table.lookup v = none) ∧
      ((∀ v ∈ vs, (table.lookup v).isSome) →
        proveLookupAux table vs = .ok (vs.filterMap (fun v => table.lookup v))) := by
    intro vs
    induction vs with
    | nil =>
      constructor
      · constructor
        · intro h
          simp [proveLookupAux] at h
        · rintro ⟨v, hv, _⟩
          simp at hv
      · intro _
        simp [proveLookupAux]
    | cons v rest ih =>
      constructor
      · constructor
        · intro h
          rcases hl : table.lookup v with _ | r
          · exact ⟨v, List.mem_cons_self v rest, hl⟩
          · rw [proveLookupAux, hl] at h
            rcases hrec : proveLookupAux table rest with e | l
            · rcases e with _
              obtain ⟨w, hw, hwl⟩ := ih.1.mp hrec
              exact ⟨w, List.mem_cons_of_mem v hw, hwl⟩
            · rw [hrec] at h
              simp at h
        · rintro ⟨w, hw, hwl⟩
          rcases List.mem_cons.mp hw with rfl | hw'
          · rw [proveLookupAux, hwl]
          · rcases hl : table.lookup v with _ | r
            · rw [proveLookupAux, hl]
            · rw [proveLookupAux, hl, ih.1.mpr ⟨w, hw', hwl⟩]
      · intro hall
        have hv := hall v (List.mem_cons_self v rest)
        rcases hl : table.lookup v with _ | r
        · rw [hl] at hv
          simp at hv
        · rw [proveLookupAux, hl,
            ih.2 (fun w hw => hall w (List.mem_cons_of_mem v hw))]
          simp [List.filterMap_cons, hl]
  refine ⟨?_, ?_, by rfl⟩
  · constructor
    · intro h
      apply (key values).1.mp
      unfold proveLookup at h
      rcases hrec : proveLookupAux table values with e | l
      · cases e
        rfl
      · rw [hrec] at h
        simp at h
    · intro hex
      unfold proveLookup
      rw [(key values).1.mpr hex]
  · intro hall
    unfold proveLookup
    rw [(key values).2 hall]

/-- Witness for C3: a present/absent query pair on a concrete subtable. -/
theorem proveLookup_correct_witness :
    proveLookup [(1, 10), (2, 20)] [1, 2] = .ok ⟨[10, 20]⟩ ∧
    proveLookup [(1, 10)] [5, 1] = .error .LookupFailed := by
  constructor
  · have h := (proveLookup_correct [(1, 10), (2, 20)] [1, 2]).2.1 (by decide)
    simpa using h
  · exact (proveLookup_correct [(1, 10)] [5, 1]).1.mpr ⟨5, by decide, by decide⟩

/-! ## Polynomials (`src/crypto/polynomial.rs`)

A `Polynomial` is its coefficient list, low-degree first; `Polynomial::new`
normalizes (`polyNew` above).  `degree()` is `coefficients.len() - 1`.
`divide` is schoolbook long division over mutable `quotient`/`remainder`
vectors; the `usize` subtraction `self_deg - divisor_deg` aborts when the
dividend degree is smaller (hence the leading `none` branch), out-of-bounds
indexing aborts (modelled with `get?`), and the `Fr` division inside
propagates its error. -/

/-- Method `Polynomial::degree`: `self.coefficients.len() - 1`. -/
def polyDegree (l : List Nat) : Nat := l.length - 1

/-- A value of the Rust `Polynomial` type: a normalized coefficient list of
reduced field elements. -/
def IsPoly (l : List Nat) : Prop := polyNew l = l ∧ ∀ x ∈ l, x < MODULUS

instance (l : List Nat) : Decidable (IsPoly l) := by
  unfold IsPoly
  infer_instance

/-- The inner loop `for j in 0..=divisor_deg`:
`remainder[i + j] -= factor * divisor.coefficients[j]`, counted by the number
of steps left. -/
def innerLoop (factor : Nat) (g : List Nat) (i : Nat) :
    Nat → Nat → List Nat → Option (List Nat)
  | _, 0, rem => some rem
  | j, steps + 1, rem =>
    match g.get? j, rem.get? (i + j) with
    | some gj, some x =>
      innerLoop factor g i (j + 1) steps
        (rem.set (i + j) (frSub x (frMul factor gj)))
    | _, _ => none

/-- One iteration of the outer loop of `divide` at index `i`: compute
`factor = remainder[i + divisor_deg] / divisor.coefficients[divisor_deg]`
and run the inner subtraction loop. -/
def outerStep (g : List Nat) (dd i : Nat) (rem : List Nat) :
    Option (Nat × List Nat) :=
  match g.get? dd, rem.get? (i + dd) with
  | some gd, some top =>
    match frDiv top gd with
    | none => none
    | some factor =>
      match innerLoop factor g i 0 (dd + 1) rem with
      | none => none
      | some rem' => some (factor, rem')
  | _, _ => none

/-- The outer loop `for i in (0..=self_deg - divisor_deg).rev()`, recording
`quotient[i] = factor` at each index. -/
def outerLoop (g : List Nat) (dd : Nat) :
    Nat → List Nat → List Nat → Option (List Nat × List Nat)
  | 0, q, rem =>
    match outerStep g dd 0 rem with
    | none => none
    | some (factor, rem') => some (q.set 0 factor, rem')
  | i + 1, q, rem =>
    match outerStep g dd (i + 1) rem with
    | none => none
    | some (factor, rem') => outerLoop g dd i (q.set (i + 1) factor) rem'

/-- Method `Polynomial::divide`: quotient seeded with `vec![Fr::zero(); len]`,
remainder seeded with the dividend's coefficients, then the outer loop and
`Polynomial::new` on the quotient and on `remainder[0..divisor_deg]`. -/
def divide (f g : List Nat) : Option (List Nat × List Nat) :=
  if f.length - 1 < g.length - 1 then none
  else
    match outerLoop g (g.length - 1) ((f.length - 1) - (g.length - 1))
        (List.replicate f.length 0) f with
    | none => none
    | some (q, rem) => some (polyNew q, polyNew (rem.take (g.length - 1)))

/-- Method `Polynomial::multiply` before normalization: the doubly nested
accumulation `result[i + j] += a_i * b_j` in source order (the wrapping
`frAdd` makes the accumulation order observable). -/
def multiplyRaw (a b : List Nat) : List Nat :=
  (List.range a.length).foldl
    (fun res i =>
      (List.range b.length).foldl
        (fun res j =>
          res.set (i + j)
            (frAdd (res.getD (i + j) 0) (frMul (a.getD i 0) (b.getD j 0))))
        res)
    (List.replicate (a.length + b.length - 1) 0)

/-- Method `Polynomial::multiply`. -/
def multiply (a b : List Nat) : List Nat := polyNew (multiplyRaw a b)

/-- Exact coefficient-wise addition of coefficient lists. -/
def addCoeffs : List Nat → List Nat → List Nat
  | [], l => l
  | a :: t, [] => a :: t
  | a :: t, b :: u => (a + b) % MODULUS :: addCoeffs t u

/-- Modelled from the spec: the round-trip property's
`quotient.multiply(g).add(remainder)` — `Polynomial::add` is absent from
`src`, so it is modelled from the spec's words as coefficient-wise addition
over the field, normalized like every `Polynomial` constructor. -/
def polyAddSpec (a b : List Nat) : List Nat := polyNew (addCoeffs a b)

/-- C8 — whenever the divisor's leading coefficient has no inverse (in
particular for the zero polynomial `[0]`), `divide` fails with the propagated
division-error, never a silently returned wrong value. -/
theorem divide_zero_divisor_fails (f g : List Nat)
    (h : inverse (g.getD (g.length - 1) 0) = none) : divide f g = none := by
  have hzero : g.getD (g.length - 1) 0 = 0 := by
    by_contra hnz
    rw [inverse, if_neg hnz] at h
    exact Option.some_ne_none _ h
  unfold divide
  split
  · rfl
  · have hstep : ∀ i rem, outerStep g (g.length - 1) i rem = none := by
      intro i rem
      unfold outerStep
      rcases hgd : g.get? (g.length - 1) with _ | gd
      · rfl
      · have hg0 : gd = 0 := by
          rw [List.getD_eq_getD_get?, hgd] at hzero
          simpa using hzero
        subst hg0
        rcases htop : rem.get? (i + (g.length - 1)) with _ | top
        · rfl
        · simp [frDiv, inverse]
    have hloop : ∀ i q rem, outerLoop g (g.length - 1) i q rem = none := by
      intro i
      cases i with
      | zero => intro q rem; unfold outerLoop; rw [hstep]
      | succ n => intro q rem; unfold outerLoop; rw [hstep]
    rw [hloop]

/-- Witness for C8 at the zero divisor: `x / 0` propagates the error. -/
theorem divide_zero_divisor_fails_witness : divide [0, 1] [0] = none :=
  divide_zero_divisor_fails [0, 1] [0] (by decide)

/-- C7 — the round-trip claim is refuted by the code three times over: a
dividend of smaller degree aborts instead of yielding `(0, f)`; for the
constant divisor `[2]` the remainder is the zero polynomial `[0]` whose
`degree()` is 0, not less than `g.degree() = 0`; and for
`f = x^2·(p-1) + x·(p-2) + (p-1) = (2^48·x + 2^48)^2` the exact quotient is
recovered but `quotient.multiply(g).add(remainder)` recombines through the
overflowing `Fr` addition and misses `f` at the middle coefficient. -/
theorem divide_roundtrip_fails :
    divide [1] [0, 1] = none ∧
    (divide [0, 1] [2] = some ([0, 9223372034707292161], [0]) ∧
      ¬ polyDegree [0] < polyDegree [2]) ∧
    (divide [ MODULUS - 1, MODULUS - 2, MODULUS - 1] [2 ^ 48, 2 ^ 48] =
        some ([2 ^ 48, 2 ^ 48], [0]) ∧
      polyAddSpec (multiply [2 ^ 48, 2 ^ 48] [2 ^ 48, 2 ^ 48]) [0] ≠
        [ MODULUS - 1, MODULUS - 2, MODULUS - 1]) := by
  refine ⟨by decide, ⟨by decide, by decide⟩, ⟨by decide, by decide⟩⟩

/-! ### Semantics bridge: coefficient lists as polynomials over `ZMod MODULUS`

Proof-side interpretation used to establish the long-division invariant; the
code itself only ever touches the computable list functions above. -/

/-- The field of the embedding, `ZMod MODULUS`. -/
abbrev K : Type := ZMod MODULUS

/-- Interpret a coefficient list (low-degree first) as a polynomial. -/
noncomputable def toP : List Nat → Polynomial K
  | [] => 0
  | a :: t => Polynomial.C (a : K) + Polynomial.X * toP t

theorem toP_nil : toP [] = 0 := rfl

theorem toP_cons (a : Nat) (t : List Nat) :
    toP (a :: t) = Polynomial.C (a : K) + Polynomial.X * toP t := rfl

/-- list helper: `getD` at an in-range index after `set`. -/
theorem getD_set_self : ∀ (l : List Nat) (n v : Nat), n < l.length →
    (l.set n v).getD n 0 = v
  | [], n, v, h => absurd h (by simp)
  | _ :: _, 0, v, _ => rfl
  | _ :: t, n + 1, v, h =>
    getD_set_self t n v (by simpa using h)

/-- list helper: `getD` away from the `set` index. -/
theorem getD_set_ne : ∀ (l : List Nat) (n v k : Nat), n ≠ k →
    (l.set n v).getD k 0 = l.getD k 0
  | [], _, _, _, _ => rfl
  | _ :: _, 0, _, 0, h => absurd rfl h
  | _ :: _, 0, _, _ + 1, _ => rfl
  | _ :: _, _ + 1, _, 0, _ => rfl
  | _ :: t, n + 1, v, k + 1, h =>
    getD_set_ne t n v k (fun hnk => h (by omega))

/-- list helper: `get?` at an in-range index yields the `getD` value. -/
theorem get?_eq_some_getD : ∀ (l : List Nat) (k : Nat), k < l.length →
    l.get? k = some (l.getD k 0)
  | [], k, h => absurd h (by simp)
  | _ :: _, 0, _ => rfl
  | _ :: t, k + 1, h => get?_eq_some_getD t k (by simpa using h)

/-- list helper: members of `l.set n v` come from `l` or are `v`. -/
theorem mem_of_mem_set : ∀ (l : List Nat) (n v x : Nat), x ∈ l.set n v →
    x ∈ l ∨ x = v
  | [], _, _, _, h => Or.inl h
  | _ :: _, 0, _, x, h => by
    rcases List.mem_cons.mp h with h | h
    · exact Or.inr h
    · exact Or.inl (List.mem_cons_of_mem _ h)
  | a :: t, n + 1, v, x, h => by
    rcases List.mem_cons.mp h with h | h
    · exact Or.inl (h ▸ List.mem_cons_self a t)
    · rcases mem_of_mem_set t n v x h with h | h
      · exact Or.inl (List.mem_cons_of_mem _ h)
      · exact Or.inr h

/-- list helper: in-range members are `getD` values. -/
theorem getD_mem : ∀ (l : List Nat) (k : Nat), k < l.length → l.getD k 0 ∈ l
  | [], k, h => absurd h (by simp)
  | a :: t, 0, _ => List.mem_cons_self a t
  | _ :: t, k + 1, h => List.mem_cons_of_mem _ (getD_mem t k (by simpa using h))

/-- list helper: `getD` of `take` below the cut. -/
theorem getD_take_lt : ∀ (l : List Nat) (m k : Nat), k < m →
    (l.take m).getD k 0 = l.getD k 0
  | [], _, _, _ => by simp
  | _ :: _, _ + 1, 0, _ => rfl
  | _ :: t, m + 1, k + 1, h => getD_take_lt t m k (by omega)
  | _ :: _, 0, _, h => absurd h (by omega)

/-- list helper: `getD` of a zero `replicate` is zero. -/
theorem getD_replicate_zero : ∀ (n k : Nat), (List.replicate n 0).getD k 0 = 0
  | 0, _ => rfl
  | _ + 1, 0 => rfl
  | n + 1, k + 1 => getD_replicate_zero n k

/-- list helper: unfolding `take` of `drop` at an in-range head. -/
theorem take_drop_cons : ∀ (g : List Nat) (j steps : Nat), j < g.length →
    (g.drop j).take (steps + 1) = g.getD j 0 :: (g.drop (j + 1)).take steps
  | [], j, _, h => absurd h (by simp)
  | _ :: _, 0, _, _ => rfl
  | _ :: t, j + 1, steps, h => take_drop_cons t j steps (by simpa using h)

theorem coeff_toP (l : List Nat) : ∀ k : Nat,
    (toP l).coeff k = ((l.getD k 0 : Nat) : K) := by
  induction l with
  | nil => intro k; simp [toP]
  | cons a t ih =>
    intro k
    cases k with
    | zero =>
      simp [toP, Polynomial.mul_coeff_zero]
    | succ k =>
      simp [toP, Polynomial.coeff_X_mul, ih k]

theorem toP_set (l : List Nat) : ∀ (n v : Nat), n < l.length →
    toP (l.set n v) = toP l +
      (Polynomial.C (v : K) - Polynomial.C ((l.getD n 0 : Nat) : K)) *
        Polynomial.X ^ n := by
  induction l with
  | nil => intro n v h; simp at h
  | cons a t ih =>
    intro n v h
    cases n with
    | zero =>
      simp [toP]
      ring
    | succ n =>
      have hn : n < t.length := by simpa using h
      show toP (a :: t.set n v) = _
      rw [toP_cons, toP_cons, ih n v hn]
      simp [List.getD_cons_succ]
      ring

theorem toP_replicate_zero : ∀ n : Nat, toP (List.replicate n 0) = 0
  | 0 => rfl
  | n + 1 => by
    show toP (0 :: List.replicate n 0) = 0
    rw [toP_cons, toP_replicate_zero n]
    simp

/-- Two lists with equal `getD` functions have equal interpretations. -/
theorem toP_congr_getD (l l' : List Nat)
    (h : ∀ k, l.getD k 0 = l'.getD k 0) : toP l = toP l' := by
  apply Polynomial.ext
  intro k
  rw [coeff_toP, coeff_toP, h k]

/-- Truncating above an index past which all entries are zero preserves the
interpretation. -/
theorem toP_take_high_zeros (l : List Nat) (m : Nat)
    (h : ∀ k, m ≤ k → l.getD k 0 = 0) : toP (l.take m) = toP l := by
  apply toP_congr_getD
  intro k
  by_cases hk : k < m
  · exact getD_take_lt l m k hk
  · have h1 : (l.take m).getD k 0 = 0 := by
      apply List.getD_eq_default
      have := List.length_take m l
      omega
    rw [h1, h k (by omega)]

theorem toP_dropTrailingZeros (l : List Nat) :
    toP (dropTrailingZeros l) = toP l := by
  induction l with
  | nil => rfl
  | cons a t ih =>
    show toP (match dropTrailingZeros t with
      | [] => if a = 0 then [] else [a]
      | t' => a :: t') = toP (a :: t)
    cases hdtz : dropTrailingZeros t with
    | nil =>
      have ht : toP t = 0 := by rw [← ih, hdtz, toP_nil]
      by_cases ha : a = 0
      · simp [ha, toP_cons, ht, toP_nil]
      · simp [ha, toP_cons, ht, toP_nil]
    | cons b t' =>
      rw [toP_cons a (b :: t'), ← hdtz, ih, toP_cons a t]

theorem toP_polyNew (l : List Nat) : toP (polyNew l) = toP l := by
  have h := toP_dropTrailingZeros l
  unfold polyNew
  cases hdtz : dropTrailingZeros l with
  | nil =>
    rw [hdtz, toP_nil] at h
    show toP [0] = toP l
    rw [← h]
    simp [toP_cons, toP_nil]
  | cons b t' =>
    rw [hdtz] at h
    show toP (b :: t') = toP l
    exact h

/-- Cast of `frMul` is the field product. -/
theorem frMul_cast (a b : Nat) : ((frMul a b : Nat) : K) = (a : K) * (b : K) := by
  unfold frMul
  rw [ZMod.natCast_mod, Nat.cast_mul]

/-- Cast of `frSub` is the field difference on reduced representatives. -/
theorem frSub_cast (a b : Nat) (_ha : a < MODULUS) (hb : b < MODULUS) :
    ((frSub a b : Nat) : K) = (a : K) - (b : K) := by
  unfold frSub
  split
  · rw [Nat.cast_sub (by omega)]
  · rw [Nat.cast_sub (by omega : b - a ≤ MODULUS),
      Nat.cast_sub (by omega : a ≤ b), ZMod.natCast_self]
    ring

/-- Nonzero reduced representatives cast to nonzero field elements. -/
theorem natCast_ne_zero (a : Nat) (ha : a < MODULUS) (hnz : a ≠ 0) :
    (a : K) ≠ 0 := by
  intro h
  have h0 : ((a : Nat) : K) = ((0 : Nat) : K) := by rw [h, Nat.cast_zero]
  exact hnz (natCast_zmod_inj ha MODULUS_pos h0)

/-- The division step cancels the led coefficient exactly:
`top - (top / gd) * gd = 0` for nonzero reduced `gd`. -/
theorem frDiv_cancel (top gd : Nat) (htop : top < MODULUS)
    (hgd_lt : gd < MODULUS) (hgd : gd ≠ 0) :
    frSub top (frMul (frMul top (frPow gd (MODULUS - 2))) gd) = 0 := by
  have hb : frMul (frMul top (frPow gd (MODULUS - 2))) gd = top := by
    apply natCast_zmod_inj (frMul_lt _ _) htop
    rw [frMul_cast, frMul_cast, ← zmod_pow_frPow gd (MODULUS - 2) (by decide)]
    have hferm : ((gd : Nat) : K) ^ (MODULUS - 1) = 1 :=
      ZMod.pow_card_sub_one_eq_one (natCast_ne_zero gd hgd_lt hgd)
    have hsplit : MODULUS - 1 = (MODULUS - 2) + 1 := by decide
    rw [hsplit, pow_succ] at hferm
    calc ((top : Nat) : K) * ((gd : Nat) : K) ^ (MODULUS - 2) * ((gd : Nat) : K)
        = ((top : Nat) : K) *
          (((gd : Nat) : K) ^ (MODULUS - 2) * ((gd : Nat) : K)) := by ring
      _ = ((top : Nat) : K) * 1 := by rw [hferm]
      _ = ((top : Nat) : K) := by ring
  rw [hb]
  unfold frSub
  simp

/-- Full characterization of the inner subtraction loop of `divide`: it
succeeds, touches exactly the window `[i + j, i + j + steps)`, where it
subtracts `factor * g[k - i]` pointwise, and its effect on the polynomial
interpretation is subtracting `factor · Xⁱ⁺ʲ · (segment of g)`. -/
theorem innerLoop_spec (factor : Nat) (g : List Nat) (i : Nat)
    (_hfac : factor < MODULUS) (_hg : ∀ x ∈ g, x < MODULUS) :
    ∀ (steps j : Nat) (rem : List Nat), j + steps ≤ g.length →
    i + g.length ≤ rem.length → (∀ x ∈ rem, x < MODULUS) →
    ∃ rem', innerLoop factor g i j steps rem = some rem' ∧
      rem'.length = rem.length ∧
      (∀ x ∈ rem', x < MODULUS) ∧
      (∀ k, k < i + j → rem'.getD k 0 = rem.getD k 0) ∧
      (∀ k, i + j + steps ≤ k → rem'.getD k 0 = rem.getD k 0) ∧
      (∀ k, i + j ≤ k → k < i + j + steps →
        rem'.getD k 0 = frSub (rem.getD k 0) (frMul factor (g.getD (k - i) 0))) ∧
      toP rem' = toP rem - Polynomial.C (factor : K) * Polynomial.X ^ (i + j) *
        toP ((g.drop j).take steps) := by
  intro steps
  induction steps with
  | zero =>
    intro j rem _ _ hrem
    refine ⟨rem, rfl, rfl, hrem, fun _ _ => rfl, fun _ _ => rfl,
      fun k h1 h2 => absurd h1 (by omega), ?_⟩
    simp [toP_nil]
  | succ steps ih =>
    intro j rem hj hlen hrem
    have hjg : j < g.length := by omega
    have hij : i + j < rem.length := by omega
    have hgj : g.get? j = some (g.getD j 0) := get?_eq_some_getD g j hjg
    have hremj : rem.get? (i + j) = some (rem.getD (i + j) 0) :=
      get?_eq_some_getD rem (i + j) hij
    have hx_lt : rem.getD (i + j) 0 < MODULUS := hrem _ (getD_mem rem (i + j) hij)
    have hv_lt : frSub (rem.getD (i + j) 0) (frMul factor (g.getD j 0)) < MODULUS :=
      frSub_lt _ _ hx_lt (frMul_lt _ _)
    have hstep : innerLoop factor g i j (steps + 1) rem =
        innerLoop factor g i (j + 1) steps
          (rem.set (i + j)
            (frSub (rem.getD (i + j) 0) (frMul factor (g.getD j 0)))) := by
      show (match g.get? j, rem.get? (i + j) with
        | some gj, some x =>
          innerLoop factor g i (j + 1) steps
            (rem.set (i + j) (frSub x (frMul factor gj)))
        | _, _ => none) = _
      rw [hgj, hremj]
    have hlen1 : (rem.set (i + j)
        (frSub (rem.getD (i + j) 0) (frMul factor (g.getD j 0)))).length =
        rem.length := by simp
    have hrem1 : ∀ x ∈ rem.set (i + j)
        (frSub (rem.getD (i + j) 0) (frMul factor (g.getD j 0))), x < MODULUS := by
      intro x hx
      rcases mem_of_mem_set _ _ _ _ hx with hx | rfl
      · exact hrem x hx
      · exact hv_lt
    obtain ⟨rem', hrun, hlen', hrem', hbelow, habove, hrange, htoP⟩ :=
      ih (j + 1)
        (rem.set (i + j) (frSub (rem.getD (i + j) 0) (frMul factor (g.getD j 0))))
        (by omega) (by omega) hrem1
    refine ⟨rem', by rw [hstep, hrun], by rw [hlen', hlen1], hrem', ?_, ?_, ?_, ?_⟩
    · intro k hk
      rw [hbelow k (by omega), getD_set_ne _ _ _ _ (by omega)]
    · intro k hk
      rw [habove k (by omega), getD_set_ne _ _ _ _ (by omega)]
    · intro k hk1 hk2
      by_cases hkij : k = i + j
      · subst hkij
        rw [hbelow _ (by omega), getD_set_self _ _ _ hij]
        have hidx : i + j - i = j := by omega
        rw [hidx]
      · rw [hrange k (by omega) (by omega), getD_set_ne _ _ _ _ (by omega)]
    · rw [htoP, toP_set rem (i + j) _ hij,
        take_drop_cons g j steps hjg, toP_cons,
        frSub_cast _ _ hx_lt (frMul_lt _ _), frMul_cast, map_sub, map_mul]
      ring

/-- One outer iteration of `divide` at index `i`: the division of the top
remainder coefficient by the divisor's leading coefficient succeeds, the led
coefficient of the window is cancelled exactly, everything below `i` and
above `i + dd` is untouched, and the polynomial interpretation of the
remainder drops by `factor · Xⁱ · g`. -/
theorem outerStep_spec (g : List Nat) (dd : Nat) (hglen : g.length = dd + 1)
    (hg : ∀ x ∈ g, x < MODULUS) (hgd : g.getD dd 0 ≠ 0)
    (i : Nat) (rem : List Nat) (hlen : i + dd < rem.length)
    (hrem : ∀ x ∈ rem, x < MODULUS) :
    ∃ factor rem', outerStep g dd i rem = some (factor, rem') ∧
      factor < MODULUS ∧
      rem'.length = rem.length ∧ (∀ x ∈ rem', x < MODULUS) ∧
      (∀ k, k < i → rem'.getD k 0 = rem.getD k 0) ∧
      rem'.getD (i + dd) 0 = 0 ∧
      (∀ k, i + dd < k → rem'.getD k 0 = rem.getD k 0) ∧
      toP rem' = toP rem -
        Polynomial.C (factor : K) * Polynomial.X ^ i * toP g := by
  have hddg : dd < g.length := by omega
  have hgdd : g.get? dd = some (g.getD dd 0) := get?_eq_some_getD g dd hddg
  have htop : rem.get? (i + dd) = some (rem.getD (i + dd) 0) :=
    get?_eq_some_getD rem (i + dd) hlen
  have htop_lt : rem.getD (i + dd) 0 < MODULUS := hrem _ (getD_mem rem (i + dd) hlen)
  have hgd_lt : g.getD dd 0 < MODULUS := hg _ (getD_mem g dd hddg)
  have hdiv : frDiv (rem.getD (i + dd) 0) (g.getD dd 0) =
      some (frMul (rem.getD (i + dd) 0) (frPow (g.getD dd 0) (MODULUS - 2))) := by
    unfold frDiv inverse
    rw [if_neg hgd]
    rfl
  obtain ⟨rem', hrun, hlen', hrem', hbelow, habove, hrange, htoP⟩ :=
    innerLoop_spec (frMul (rem.getD (i + dd) 0) (frPow (g.getD dd 0) (MODULUS - 2)))
      g i (frMul_lt _ _) hg (dd + 1) 0 rem (by omega) (by omega) hrem
  refine ⟨frMul (rem.getD (i + dd) 0) (frPow (g.getD dd 0) (MODULUS - 2)), rem',
    ?_, frMul_lt _ _, hlen', hrem', ?_, ?_, ?_, ?_⟩
  · unfold outerStep
    simp only [hgdd, htop, hdiv, hrun]
  · intro k hk
    exact hbelow k (by omega)
  · have h0 := hrange (i + dd) (by omega) (by omega)
    rw [h0]
    have hsub : (i + dd) - i = dd := by omega
    rw [hsub]
    exact frDiv_cancel _ _ htop_lt hgd_lt hgd
  · intro k hk
    exact habove k (by omega)
  · rw [htoP]
    have hseg : (g.drop 0).take (dd + 1) = g := by
      rw [List.drop_zero, ← hglen, List.take_length]
    rw [hseg, Nat.add_zero]

/-- The outer loop of `divide`, run from index `i` down to 0, preserves the
running identity `q·g + rem = P`, keeps everything reduced, and zeroes the
remainder from `dd` on up. -/
theorem outerLoop_spec (g : List Nat) (dd : Nat) (hglen : g.length = dd + 1)
    (hg : ∀ x ∈ g, x < MODULUS) (hgd : g.getD dd 0 ≠ 0) (P : Polynomial K) :
    ∀ (i : Nat) (q rem : List Nat),
    i + dd < rem.length → q.length = rem.length →
    (∀ x ∈ q, x < MODULUS) → (∀ x ∈ rem, x < MODULUS) →
    (∀ k, k ≤ i → q.getD k 0 = 0) →
    (∀ k, i + dd < k → rem.getD k 0 = 0) →
    toP q * toP g + toP rem = P →
    ∃ q' rem', outerLoop g dd i q rem = some (q', rem') ∧
      q'.length = q.length ∧ rem'.length = rem.length ∧
      (∀ x ∈ q', x < MODULUS) ∧ (∀ x ∈ rem', x < MODULUS) ∧
      (∀ k, dd ≤ k → rem'.getD k 0 = 0) ∧
      toP q' * toP g + toP rem' = P := by
  intro i
  induction i with
  | zero =>
    intro q rem hlen hqlen hq hrem hqzero hremzero hP
    obtain ⟨factor, rem₁, hrun, hfac, hlen₁, hrem₁, _, htop0, habove, htoP⟩ :=
      outerStep_spec g dd hglen hg hgd 0 rem hlen hrem
    have hi_q : 0 < q.length := by omega
    refine ⟨q.set 0 factor, rem₁, ?_, by simp, hlen₁, ?_, hrem₁, ?_, ?_⟩
    · unfold outerLoop
      rw [hrun]
    · intro x hx
      rcases mem_of_mem_set _ _ _ _ hx with hx | rfl
      · exact hq x hx
      · exact hfac
    · intro k hk
      rcases Nat.eq_or_lt_of_le hk with hk' | hk'
      · rw [← hk']
        simpa using htop0
      · rw [habove k (by omega)]
        exact hremzero k (by omega)
    · rw [toP_set q 0 factor hi_q, hqzero 0 (by omega), htoP, ← hP]
      push_cast
      rw [Polynomial.C_0]
      ring
  | succ i ih =>
    intro q rem hlen hqlen hq hrem hqzero hremzero hP
    obtain ⟨factor, rem₁, hrun, hfac, hlen₁, hrem₁, _, htop0, habove, htoP⟩ :=
      outerStep_spec g dd hglen hg hgd (i + 1) rem hlen hrem
    have hi_q : i + 1 < q.length := by omega
    have hq₁ : ∀ x ∈ q.set (i + 1) factor, x < MODULUS := by
      intro x hx
      rcases mem_of_mem_set _ _ _ _ hx with hx | rfl
      · exact hq x hx
      · exact hfac
    have hq₁zero : ∀ k, k ≤ i → (q.set (i + 1) factor).getD k 0 = 0 := by
      intro k hk
      rw [getD_set_ne _ _ _ _ (by omega)]
      exact hqzero k (by omega)
    have hrem₁zero : ∀ k, i + dd < k → rem₁.getD k 0 = 0 := by
      intro k hk
      rcases Nat.eq_or_lt_of_le hk with hk' | hk'
      · have hkk : k = i + 1 + dd := by omega
        rw [hkk]
        exact htop0
      · rw [habove k (by omega)]
        exact hremzero k (by omega)
    have hP₁ : toP (q.set (i + 1) factor) * toP g + toP rem₁ = P := by
      rw [toP_set q (i + 1) factor hi_q, hqzero (i + 1) (by omega), htoP, ← hP]
      push_cast
      rw [Polynomial.C_0]
      ring
    obtain ⟨q', rem', hrun', hq'len, hrem'len, hq', hrem', hzero', hP'⟩ :=
      ih (q.set (i + 1) factor) rem₁ (by omega) (by simp [hlen₁]; omega)
        hq₁ hrem₁ hq₁zero hrem₁zero hP₁
    refine ⟨q', rem', ?_, by simpa using hq'len, by rw [hrem'len, hlen₁], hq', hrem',
      hzero', hP'⟩
    unfold outerLoop
    rw [hrun]
    exact hrun'

/-! ### Normalization facts and the division theorem -/

theorem polyNew_ne_nil (l : List Nat) : polyNew l ≠ [] := by
  unfold polyNew
  cases hdtz : dropTrailingZeros l with
  | nil => simp
  | cons b t' => simp

theorem mem_dropTrailingZeros (l : List Nat) (x : Nat)
    (h : x ∈ dropTrailingZeros l) : x ∈ l := by
  induction l with
  | nil => exact absurd h (by simp [dropTrailingZeros])
  | cons a t ih =>
    rw [show dropTrailingZeros (a :: t) = (match dropTrailingZeros t with
      | [] => if a = 0 then [] else [a]
      | t' => a :: t') from rfl] at h
    cases hdtz : dropTrailingZeros t with
    | nil =>
      rw [hdtz] at h
      by_cases ha : a = 0
      · rw [if_pos ha] at h
        exact absurd h (by simp)
      · rw [if_neg ha] at h
        rcases List.mem_cons.mp h with rfl | h
        · exact List.mem_cons_self x t
        · exact absurd h (by simp)
    | cons b t' =>
      rw [hdtz] at h
      rcases List.mem_cons.mp h with rfl | h
      · exact List.mem_cons_self x t
      · exact List.mem_cons_of_mem _ (ih (hdtz ▸ h))

theorem length_dropTrailingZeros_le (l : List Nat) :
    (dropTrailingZeros l).length ≤ l.length := by
  induction l with
  | nil => simp [dropTrailingZeros]
  | cons a t ih =>
    rw [show dropTrailingZeros (a :: t) = (match dropTrailingZeros t with
      | [] => if a = 0 then [] else [a]
      | t' => a :: t') from rfl]
    cases hdtz : dropTrailingZeros t with
    | nil =>
      by_cases ha : a = 0 <;> simp [ha]
    | cons b t' =>
      have := ih
      rw [hdtz] at this
      simpa using this

theorem polyNew_length_le (l : List Nat) (m : Nat) (hm : 1 ≤ m)
    (hl : l.length ≤ m) : (polyNew l).length ≤ m := by
  unfold polyNew
  cases hdtz : dropTrailingZeros l with
  | nil => simpa using hm
  | cons b t' =>
    show (b :: t').length ≤ m
    have := length_dropTrailingZeros_le l
    rw [hdtz] at this
    omega

/-- A normalized polynomial other than `[0]` is a fixed point of
`dropTrailingZeros`. -/
theorem dropTrailingZeros_of_polyNew (l : List Nat) (hl : polyNew l = l)
    (hnz : l ≠ [0]) : dropTrailingZeros l = l := by
  unfold polyNew at hl
  cases hdtz : dropTrailingZeros l with
  | nil =>
    rw [hdtz] at hl
    have hl' : [0] = l := hl
    exact absurd hl'.symm hnz
  | cons b t' =>
    rw [hdtz] at hl
    exact hl

/-- A nonempty fixed point of `dropTrailingZeros` has a nonzero led
coefficient. -/
theorem lead_ne_zero_of_dropTrailingZeros (l : List Nat)
    (hfix : dropTrailingZeros l = l) (hne : l ≠ []) :
    l.getD (l.length - 1) 0 ≠ 0 := by
  induction l with
  | nil => exact absurd rfl hne
  | cons a t ih =>
    rw [show dropTrailingZeros (a :: t) = (match dropTrailingZeros t with
      | [] => if a = 0 then [] else [a]
      | t' => a :: t') from rfl] at hfix
    cases hdtz : dropTrailingZeros t with
    | nil =>
      rw [hdtz] at hfix
      by_cases ha : a = 0
      · rw [if_pos ha] at hfix
        exact absurd hfix.symm (by simp)
      · rw [if_neg ha] at hfix
        have hfix' : [a] = a :: t := hfix
        have ht : t = [] := by
          injection hfix' with h1 h2
          exact h2.symm
        subst ht
        simpa using ha
    | cons b t' =>
      rw [hdtz] at hfix
      have hfix' : a :: (b :: t') = a :: t := hfix
      have ht : b :: t' = t := by
        injection hfix' with h1 h2
      have htfix : dropTrailingZeros t = t := by
        rw [hdtz, ht]
      have htne : t ≠ [] := by
        rw [← ht]
        simp
      have hlast := ih htfix htne
      have htpos : 0 < t.length := List.length_pos.mpr htne
      have hidx : (a :: t).length - 1 = (t.length - 1) + 1 := by
        simp
        omega
      show (a :: t).getD ((a :: t).length - 1) 0 ≠ 0
      rw [hidx, List.getD_cons_succ]
      exact hlast

/-- The main division theorem: for normalized reduced inputs with a nonzero
divisor of degree at most the dividend's, `divide` succeeds, the outputs
recombine to the dividend exactly over the field (coefficient-wise, the
convolution of `q` and `g` plus `r`), and the remainder is zero or of degree
below the divisor's. -/
theorem divide_main (f g : List Nat) (hf : IsPoly f) (hg : IsPoly g)
    (hgz : g ≠ [0]) (hdeg : polyDegree g ≤ polyDegree f) :
    ∃ q r, divide f g = some (q, r) ∧
      (∀ k, ((f.getD k 0 : Nat) : K) =
        (∑ j in Finset.range (k + 1),
          ((q.getD j 0 : Nat) : K) * ((g.getD (k - j) 0 : Nat) : K)) +
        ((r.getD k 0 : Nat) : K)) ∧
      (r = [0] ∨ polyDegree r < polyDegree g) := by
  have hfne : f ≠ [] := by
    rw [← hf.1]
    exact polyNew_ne_nil f
  have hgne : g ≠ [] := by
    rw [← hg.1]
    exact polyNew_ne_nil g
  have hflen : 1 ≤ f.length := List.length_pos.mpr hfne
  have hglen : 1 ≤ g.length := List.length_pos.mpr hgne
  have hdeg' : g.length - 1 ≤ f.length - 1 := hdeg
  have hgd : g.getD (g.length - 1) 0 ≠ 0 :=
    lead_ne_zero_of_dropTrailingZeros g
      (dropTrailingZeros_of_polyNew g hg.1 hgz) hgne
  obtain ⟨q₁, rem₁, hrun, hq₁len, hrem₁len, hq₁lt, hrem₁lt, hzero₁, hP₁⟩ :=
    outerLoop_spec g (g.length - 1) (by omega) hg.2 hgd (toP f)
      ((f.length - 1) - (g.length - 1)) (List.replicate f.length 0) f
      (by omega)
      (by simp)
      (by
        intro x hx
        rw [List.eq_of_mem_replicate hx]
        exact MODULUS_pos)
      hf.2
      (fun k _ => getD_replicate_zero _ _)
      (fun k hk => List.getD_eq_default _ _ (by omega))
      (by rw [toP_replicate_zero, zero_mul, zero_add])
  have hdiv_eq : divide f g =
      some (polyNew q₁, polyNew (rem₁.take (g.length - 1))) := by
    unfold divide
    rw [if_neg (by omega), hrun]
  have htoPq : toP (polyNew q₁) = toP q₁ := toP_polyNew q₁
  have htoPr : toP (polyNew (rem₁.take (g.length - 1))) = toP rem₁ := by
    rw [toP_polyNew, toP_take_high_zeros rem₁ (g.length - 1) hzero₁]
  have hmain : toP (polyNew q₁) * toP g + toP (polyNew (rem₁.take (g.length - 1))) =
      toP f := by
    rw [htoPq, htoPr, hP₁]
  refine ⟨polyNew q₁, polyNew (rem₁.take (g.length - 1)), hdiv_eq, ?_, ?_⟩
  · intro k
    have hco := congrArg (fun p => Polynomial.coeff p k) hmain
    simp only at hco
    rw [Polynomial.coeff_add, Polynomial.coeff_mul] at hco
    rw [Finset.Nat.sum_antidiagonal_eq_sum_range_succ_mk] at hco
    rw [coeff_toP, coeff_toP] at hco
    rw [← hco]
    congr 1
    apply Finset.sum_congr rfl
    intro j _
    rw [coeff_toP, coeff_toP]
  · by_cases hdd : g.length - 1 = 0
    · left
      rw [hdd]
      rfl
    · right
      have htk : (rem₁.take (g.length - 1)).length ≤ g.length - 1 := by
        simp
      have hrl : (polyNew (rem₁.take (g.length - 1))).length ≤ g.length - 1 :=
        polyNew_length_le _ _ (by omega) htk
      have hrne : polyNew (rem₁.take (g.length - 1)) ≠ [] := polyNew_ne_nil _
      have hrpos : 1 ≤ (polyNew (rem₁.take (g.length - 1))).length :=
        List.length_pos.mpr hrne
      unfold polyDegree
      omega

/-- C7 (amended) — under the precondition `g ≠ 0` and
`f.degree() ≥ g.degree()`, `divide` returns `(quotient, remainder)` with
`f = quotient · g + remainder` holding coefficient-wise with exact field
arithmetic, and the remainder is the zero polynomial or of degree strictly
below the divisor's. -/
theorem divide_roundtrip_amended (f g : List Nat) (hf : IsPoly f)
    (hg : IsPoly g) (hgz : g ≠ [0]) (hdeg : polyDegree g ≤ polyDegree f) :
    ∃ q r, divide f g = some (q, r) ∧
      (∀ k, ((f.getD k 0 : Nat) : K) =
        (∑ j in Finset.range (k + 1),
          ((q.getD j 0 : Nat) : K) * ((g.getD (k - j) 0 : Nat) : K)) +
        ((r.getD k 0 : Nat) : K)) ∧
      (r = [0] ∨ polyDegree r < polyDegree g) :=
  divide_main f g hf hg hgz hdeg

/-- Witness for C7 at `f = 3x + 5`, `g = x`. -/
theorem divide_roundtrip_amended_witness :
    ∃ q r, divide [5, 3] [0, 1] = some (q, r) ∧
      (∀ k, (([5, 3].getD k 0 : Nat) : K) =
        (∑ j in Finset.range (k + 1),
          ((q.getD j 0 : Nat) : K) * (([0, 1].getD (k - j) 0 : Nat) : K)) +
        ((r.getD k 0 : Nat) : K)) ∧
      (r = [0] ∨ polyDegree r < polyDegree [0, 1]) :=
  divide_roundtrip_amended [5, 3] [0, 1] (by decide) (by decide) (by decide)
    (by decide)

/-- C10 — `divide` aborts (usize-underflow panic, modelled as `none`)
whenever the dividend degree is below the divisor degree, instead of
returning quotient zero and remainder `f`; and under the precondition
`f.degree() ≥ g.degree()` (with a well-formed nonzero divisor) every index
access stays in bounds and the division completes. -/
theorem divide_underflow_and_bounds :
    (∀ f g : List Nat, polyDegree f < polyDegree g → divide f g = none) ∧
    (∀ f g : List Nat, IsPoly f → IsPoly g → g ≠ [0] →
      polyDegree g ≤ polyDegree f → (divide f g).isSome) := by
  constructor
  · intro f g h
    unfold polyDegree at h
    unfold divide
    rw [if_pos h]
  · intro f g hf hg hgz hdeg
    obtain ⟨q, r, hrun, -, -⟩ := divide_main f g hf hg hgz hdeg
    rw [hrun]
    rfl

/-- Witness for C10: a panicking pair and an in-bounds pair. -/
theorem divide_underflow_and_bounds_witness :
    divide [1] [0, 1] = none ∧ (divide [0, 1] [1, 1]).isSome :=
  ⟨divide_underflow_and_bounds.1 [1] [0, 1] (by decide),
    divide_underflow_and_bounds.2 [0, 1] [1, 1] (by decide) (by decide)
      (by decide) (by decide)⟩

end JoltCore
